import Mathlib

/-
Verification of the consistent hashing ring of src/consistent_hashing/ring.py.

The Python code is shallowly embedded as follows.

* Python dicts become association lists (`List (key × value)`); `dictLookup`,
  `dictSet`, `dictDel` model `d[k]`, `d[k] = v` and `del d[k]` on dicts whose
  keys are unique, which CPython guarantees.
* Node objects are mutable and aliased (the ring dict and the caller hold
  references to the same object, and `transfer_data` may receive the same
  object as source and destination).  We therefore model a heap: node objects
  are addressed by a numeric object id, and `RingState.heap` maps ids to the
  current contents of each object.  Ring operations take object ids where the
  Python methods take object references.
* Python exceptions become an explicit `PyError` result component.  An
  exception does not roll back earlier mutations, so every mutating operation
  returns the state as mutated up to the point of the raise, paired with
  `Option PyError`.
* The hash function of the source is `md5(str(key)) mod 360`.  Its only
  property used by the ring logic is that it is a deterministic function from
  strings to naturals, so the embedding takes `hashFn : String → Nat` as an
  explicit parameter; the specification itself treats the hash as an abstract
  digest reduced modulo the space size, with collisions expected.
* Print statements of the source are side effects without influence on the
  state and are dropped.
-/

namespace ConsistentHashing

/-- Claim-relevant subset of Python exception outcomes, plus the two error
kinds named by the specification (`emptyRingError`, `lastNodeError`) that the
code itself never raises; those two are modelled from the spec so that
statements about them can be written down. -/
inductive PyError where
  /-- Raised explicitly by `add_server` when the hashed position is occupied;
  the specification calls this `DuplicatePositionError`. -/
  | duplicatePositionError (pos : Nat)
  /-- KeyError on the ring dict (`self.ring[...]` or `del self.ring[...]`);
  for `remove_server` on an unregistered position the specification calls
  this `NodeNotFoundError`. -/
  | ringKeyError (pos : Nat)
  /-- KeyError on the data dict of a node; the specification calls this
  `KeyNotFoundError`. -/
  | dataKeyError (key : String)
  /-- ZeroDivisionError from `... % len(self.sorted_server_keys)` when the
  ring is empty. -/
  | zeroDivisionError
  /-- Modelled from the spec: `EmptyRingError`, the error the specification
  assigns to placement or lookup on an empty ring.  The code never raises
  it (section 9 of the spec notes the source performs unguarded arithmetic
  instead). -/
  | emptyRingError
  /-- Modelled from the spec: `LastNodeError`, the error the specification
  assigns to removing the sole member of the ring.  The code never raises
  it. -/
  | lastNodeError
deriving DecidableEq, Repr

section Dict

variable {α : Type} {β : Type} [DecidableEq α]

/-- Python `d[k]` as a total lookup: the value at the first entry whose key
equals `k`, if any.  A CPython dict holds each key at most once. -/
def dictLookup : List (α × β) → α → Option β
  | [], _ => none
  | e :: es, k => if e.1 = k then some e.2 else dictLookup es k

/-- Python `k in d`. -/
def dictMem (d : List (α × β)) (k : α) : Bool :=
  (dictLookup d k).isSome

/-- Python `d[k] = v`: overwrite the entry in place when the key is present,
otherwise append a new entry (CPython dicts preserve insertion order). -/
def dictSet : List (α × β) → α → β → List (α × β)
  | [], k, v => [(k, v)]
  | e :: es, k, v => if e.1 = k then (k, v) :: es else e :: dictSet es k v

/-- Python `del d[k]`: drop the first entry whose key equals `k` (the only
one, for a dict). -/
def dictDel : List (α × β) → α → List (α × β)
  | [], _ => []
  | e :: es, k => if e.1 = k then es else e :: dictDel es k

end Dict

/-- A `ServerNode` of ring.py: a name and a data dict from keys to values. -/
structure ServerNode where
  name : String
  data : List (String × Int)
deriving DecidableEq, Repr

/-- ServerNode.insert_data: store `value` under `key`; overwriting an
existing key is allowed (the source only prints a warning). -/
def ServerNode.insert_data (n : ServerNode) (key : String) (value : Int) : ServerNode :=
  { n with data := dictSet n.data key value }

/-- ServerNode.remove_data: `del self.data[key]`; raises a KeyError and
leaves the node unchanged when the key is absent. -/
def ServerNode.remove_data (n : ServerNode) (key : String) : ServerNode × Option PyError :=
  if dictMem n.data key then
    ({ n with data := dictDel n.data key }, none)
  else
    (n, some (PyError.dataKeyError key))

/-- State of the whole program: the heap of node objects (by object id), the
`ring` dict from hashed position to the id of the registered node object, and
the `sorted_server_keys` list. -/
structure RingState where
  heap : Nat → ServerNode
  ring : List (Nat × Nat)
  sorted_server_keys : List Nat

/-- Mutate the node object at id `i` in place. -/
def RingState.updateNode (st : RingState) (i : Nat) (f : ServerNode → ServerNode) : RingState :=
  { st with heap := fun j => if j = i then f (st.heap j) else st.heap j }

/-- bisect.bisect (bisect_right) specialised to the sorted lists the ring
maintains: the length of the maximal prefix of entries that are at most `x`,
which is exactly the rightmost insertion point the binary search of the
Python library returns on a sorted list. -/
def bisect_right : List Nat → Nat → Nat
  | [], _ => 0
  | y :: ys, x => if x < y then 0 else bisect_right ys x + 1

/-- bisect.insort: insert `x` into a sorted list, keeping it sorted, at the
rightmost position (after equal entries). -/
def insort : List Nat → Nat → List Nat
  | [], x => [x]
  | y :: ys, x => if x < y then x :: y :: ys else y :: insort ys x

/-- Python `list.remove`: drop the first occurrence of `x`.  The source only
reaches this call for a value that is present (it follows a successful
`del self.ring[...]` of the same value), so the ValueError branch of the
Python method is not modelled. -/
def removeFirst : List Nat → Nat → List Nat
  | [], _ => []
  | y :: ys, x => if y = x then ys else y :: removeFirst ys x

/-- ConsistentHashingRing.get_successor_node: hash the node name, take the
bisect insertion point modulo the number of registered positions, and return
the id of the node registered at that position.  On an empty ring the modulo
is by zero, which in Python raises ZeroDivisionError. -/
def get_successor_node (hashFn : String → Nat) (st : RingState) (nodeId : Nat) :
    Except PyError Nat :=
  if st.sorted_server_keys.length = 0 then
    Except.error PyError.zeroDivisionError
  else
    match dictLookup st.ring
        (st.sorted_server_keys.getD
          (bisect_right st.sorted_server_keys (hashFn (st.heap nodeId).name) %
            st.sorted_server_keys.length) 0) with
    | some i => Except.ok i
    | none =>
        Except.error (PyError.ringKeyError
          (st.sorted_server_keys.getD
            (bisect_right st.sorted_server_keys (hashFn (st.heap nodeId).name) %
              st.sorted_server_keys.length) 0))

/-- First loop of ConsistentHashingRing.transfer_data: for each key, read the
value from the source node and insert it into the destination node.  The read
happens on the current heap, so when source and destination are the same
object the loop rewrites each key in place. -/
def insertPhase (fromId toId : Nat) : RingState → List String → RingState × Option PyError
  | st, [] => (st, none)
  | st, key :: rest =>
    match dictLookup (st.heap fromId).data key with
    | none => (st, some (PyError.dataKeyError key))
    | some v => insertPhase fromId toId (st.updateNode toId (fun n => n.insert_data key v)) rest

/-- Second loop of ConsistentHashingRing.transfer_data: remove each key from
the source node. -/
def deletePhase (fromId : Nat) : RingState → List String → RingState × Option PyError
  | st, [] => (st, none)
  | st, key :: rest =>
    match (st.heap fromId).remove_data key with
    | (n1, none) => deletePhase fromId (st.updateNode fromId (fun _ => n1)) rest
    | (_, some e) => (st, some e)

/-- ConsistentHashingRing.transfer_data: insert all listed keys into the
destination node, then delete them from the source node. -/
def transfer_data (st : RingState) (fromId toId : Nat) (keys : List String) :
    RingState × Option PyError :=
  match insertPhase fromId toId st keys with
  | (st1, some e) => (st1, some e)
  | (st1, none) => deletePhase fromId st1 keys

/-- Registration step of ConsistentHashingRing.add_server: store the node in
the ring dict at its hashed position and insort the position. -/
def addRegister (hashFn : String → Nat) (st : RingState) (nodeId : Nat) : RingState :=
  { st with
    ring := dictSet st.ring (hashFn (st.heap nodeId).name) nodeId,
    sorted_server_keys := insort st.sorted_server_keys (hashFn (st.heap nodeId).name) }

/-- Key partition of ConsistentHashingRing.add_server: the keys of the
successor node whose hash is strictly below the hash of the name of the new
node. -/
def keysToTransfer (hashFn : String → Nat) (st : RingState) (succId nodeId : Nat) :
    List String :=
  ((st.heap succId).data.map Prod.fst).filter
    (fun key => hashFn key < hashFn ((st.heap nodeId).name))

/-- ConsistentHashingRing.add_server: fail when the hashed position is
already occupied; otherwise register the node, look up its successor on the
grown ring, and transfer the matching keys from the successor to the new
node. -/
def add_server (hashFn : String → Nat) (st : RingState) (nodeId : Nat) :
    RingState × Option PyError :=
  if dictMem st.ring (hashFn (st.heap nodeId).name) then
    (st, some (PyError.duplicatePositionError (hashFn (st.heap nodeId).name)))
  else
    match get_successor_node hashFn (addRegister hashFn st nodeId) nodeId with
    | Except.error e => (addRegister hashFn st nodeId, some e)
    | Except.ok succId =>
        transfer_data (addRegister hashFn st nodeId) succId nodeId
          (keysToTransfer hashFn (addRegister hashFn st nodeId) succId nodeId)

/-- ConsistentHashingRing.remove_server: look up the successor, transfer all
keys of the node to it, then delete the position from the ring dict and from
the sorted list.  There is no precondition check: the deletion of an
unregistered position raises its KeyError only after the transfer already
mutated the stores. -/
def remove_server (hashFn : String → Nat) (st : RingState) (nodeId : Nat) :
    RingState × Option PyError :=
  match get_successor_node hashFn st nodeId with
  | Except.error e => (st, some e)
  | Except.ok succId =>
      match transfer_data st nodeId succId ((st.heap nodeId).data.map Prod.fst) with
      | (st1, some e) => (st1, some e)
      | (st1, none) =>
          if dictMem st1.ring (hashFn (st.heap nodeId).name) then
            ({ st1 with
               ring := dictDel st1.ring (hashFn (st.heap nodeId).name),
               sorted_server_keys :=
                 removeFirst st1.sorted_server_keys (hashFn (st.heap nodeId).name) }, none)
          else
            (st1, some (PyError.ringKeyError (hashFn (st.heap nodeId).name)))

/-- ConsistentHashingRing.add_data: hash the key, pick the owning node by the
same bisect-modulo successor rule, and insert the value there.  On an empty
ring the modulo is by zero. -/
def add_data (hashFn : String → Nat) (st : RingState) (key : String) (value : Int) :
    RingState × Option PyError :=
  if st.sorted_server_keys.length = 0 then
    (st, some PyError.zeroDivisionError)
  else
    match dictLookup st.ring
        (st.sorted_server_keys.getD
          (bisect_right st.sorted_server_keys (hashFn key) % st.sorted_server_keys.length) 0) with
    | some i => (st.updateNode i (fun n => n.insert_data key value), none)
    | none =>
        (st, some (PyError.ringKeyError
          (st.sorted_server_keys.getD
            (bisect_right st.sorted_server_keys (hashFn key) % st.sorted_server_keys.length) 0)))

/-- ConsistentHashingRing.remove_data: same owner lookup as add_data, then
delete the key from the owning node (KeyError when absent, leaving the node
unchanged). -/
def remove_data (hashFn : String → Nat) (st : RingState) (key : String) :
    RingState × Option PyError :=
  if st.sorted_server_keys.length = 0 then
    (st, some PyError.zeroDivisionError)
  else
    match dictLookup st.ring
        (st.sorted_server_keys.getD
          (bisect_right st.sorted_server_keys (hashFn key) % st.sorted_server_keys.length) 0) with
    | some i =>
        match (st.heap i).remove_data key with
        | (n1, e) => (st.updateNode i (fun _ => n1), e)
    | none =>
        (st, some (PyError.ringKeyError
          (st.sorted_server_keys.getD
            (bisect_right st.sorted_server_keys (hashFn key) % st.sorted_server_keys.length) 0)))

/-- Node `i` currently holds key `k`. -/
def DHolds (st : RingState) (i : Nat) (k : String) : Prop :=
  dictMem (st.heap i).data k = true

instance (st : RingState) (i : Nat) (k : String) : Decidable (DHolds st i k) := by
  unfold DHolds; infer_instance

/-- Concatenation of the keys stored on the nodes registered in the ring, in
registration order: the total key population of the ring. -/
def ringKeys (st : RingState) : List String :=
  st.ring.foldr (fun e acc => ((st.heap e.2).data.map Prod.fst) ++ acc) []

/-- Invariant of the spec (section 3): `sorted_server_keys` is exactly the
key set of the ring dict, sorted ascending and without duplicates. -/
def SortedInv (st : RingState) : Prop :=
  st.sorted_server_keys.Sorted (· < ·)
  ∧ (st.ring.map Prod.fst).Nodup
  ∧ ∀ p : Nat, p ∈ st.sorted_server_keys ↔ (dictLookup st.ring p).isSome = true

/-- At most one id in `ids` satisfies `P`. -/
def AtMostOne (P : Nat → Prop) (ids : List Nat) : Prop :=
  ∀ i ∈ ids, ∀ j ∈ ids, P i → P j → i = j

/-- Concrete deterministic stand-in for the md5-based hash of the source,
used for the concrete scenarios below (the ring logic only consumes the
resulting positions). -/
def hashT : String → Nat := fun s =>
  if s = "solo" then 10 else
  if s = "k" then 5 else
  if s = "z" then 6 else
  if s = "nodeP" then 50 else
  if s = "nodeS" then 200 else
  if s = "nodeN" then 100 else
  if s = "p" then 100 else
  if s = "q" then 70 else
  if s = "big" then 300 else
  if s = "dupP" then 50 else
  if s = "nodeA" then 30 else
  if s = "b" then 20 else
  if s = "colA" then 30 else
  if s = "colB" then 30 else
  if s = "nodeC" then 300 else 0

/-- Heap with the listed node objects; unused ids hold an inert blank node. -/
def mkHeap (l : List (Nat × ServerNode)) : Nat → ServerNode :=
  fun i => (dictLookup l i).getD ⟨"", []⟩

/-- Ring with a single node (id 0, position 10) holding one key. -/
def stSolo : RingState :=
  { heap := mkHeap [(0, ⟨"solo", [("k", 1)]⟩)],
    ring := [(10, 0)],
    sorted_server_keys := [10] }

/-- Ring with nodes at positions 50 and 200; the node at 200 holds a key
hashing to 100 and a key hashing to 70.  Ids 2 and 3 are unregistered nodes
whose names hash to 100 and to the occupied position 50. -/
def stC2 : RingState :=
  { heap := mkHeap
      [(0, ⟨"nodeP", []⟩), (1, ⟨"nodeS", [("p", 3), ("q", 4)]⟩),
       (2, ⟨"nodeN", []⟩), (3, ⟨"dupP", []⟩)],
    ring := [(50, 0), (200, 1)],
    sorted_server_keys := [50, 200] }

/-- Ring with empty nodes at positions 50 and 200 plus unregistered query
nodes whose names hash to 100 and 300. -/
def stC5 : RingState :=
  { heap := mkHeap
      [(0, ⟨"nodeP", []⟩), (1, ⟨"nodeS", []⟩), (3, ⟨"nodeN", []⟩), (4, ⟨"big", []⟩)],
    ring := [(50, 0), (200, 1)],
    sorted_server_keys := [50, 200] }

/-- Ring with one node at position 30 (id 0) and an unregistered node object
(id 1, position 20) holding one key. -/
def stC7 : RingState :=
  { heap := mkHeap [(0, ⟨"nodeA", []⟩), (1, ⟨"b", [("k", 1)]⟩)],
    ring := [(30, 0)],
    sorted_server_keys := [30] }

/-- Ring with nodes at positions 30 (id 0) and 300 (id 2), plus an
unregistered node object (id 1) whose name also hashes to 30. -/
def stCol : RingState :=
  { heap := mkHeap [(0, ⟨"colA", []⟩), (1, ⟨"colB", []⟩), (2, ⟨"nodeC", []⟩)],
    ring := [(30, 0), (300, 2)],
    sorted_server_keys := [30, 300] }

/-- Single node holding two keys, used for the self-transfer scenario. -/
def stC10 : RingState :=
  { heap := mkHeap [(0, ⟨"solo", [("k", 1), ("z", 2)]⟩)],
    ring := [(10, 0)],
    sorted_server_keys := [10] }

/-- Two-node ring where the node at position 50 holds one key. -/
def stW1 : RingState :=
  { heap := mkHeap [(0, ⟨"nodeP", [("q", 4)]⟩), (1, ⟨"nodeS", []⟩)],
    ring := [(50, 0), (200, 1)],
    sorted_server_keys := [50, 200] }

/-- The freshly constructed empty ring. -/
def stEmpty : RingState :=
  { heap := mkHeap [], ring := [], sorted_server_keys := [] }

section DictLemmas

variable {α : Type} {β : Type} [DecidableEq α]

lemma dictLookup_dictSet (d : List (α × β)) (k x : α) (v : β) :
    dictLookup (dictSet d k v) x = if x = k then some v else dictLookup d x := by
  induction d with
  | nil =>
      simp only [dictSet, dictLookup]
      by_cases hxk : x = k
      · subst hxk; simp
      · rw [if_neg (fun h : k = x => hxk h.symm), if_neg hxk]
  | cons e es ih =>
      by_cases hek : e.1 = k
      · by_cases hxk : x = k
        · subst hxk; simp [dictSet, dictLookup, hek]
        · have hkx : ¬ k = x := fun h => hxk h.symm
          have hex : ¬ e.1 = x := fun h => hxk (hek.symm.trans h).symm
          simp [dictSet, dictLookup, hek, hkx, hex, hxk]
      · by_cases hex : e.1 = x
        · have hxk : ¬ x = k := fun h => hek (hex.trans h)
          simp [dictSet, dictLookup, hek, hex, hxk]
        · simp [dictSet, dictLookup, hek, hex, ih]

lemma dictMem_dictSet (d : List (α × β)) (k x : α) (v : β) :
    dictMem (dictSet d k v) x = true ↔ (x = k ∨ dictMem d x = true) := by
  unfold dictMem
  rw [dictLookup_dictSet]
  by_cases hxk : x = k <;> simp [hxk]

lemma dictMem_iff_mem_map_fst (d : List (α × β)) (k : α) :
    dictMem d k = true ↔ k ∈ d.map Prod.fst := by
  induction d with
  | nil => simp [dictMem, dictLookup]
  | cons e es ih =>
      by_cases hek : e.1 = k
      · simp [dictMem, dictLookup, hek]
      · have hke : ¬ k = e.1 := fun h => hek h.symm
        simp only [dictMem] at ih
        simp only [dictMem, dictLookup, if_neg hek, List.map_cons, List.mem_cons]
        rw [ih]
        simp [hke]

lemma dictLookup_eq_none (d : List (α × β)) (k : α) (h : ¬ k ∈ d.map Prod.fst) :
    dictLookup d k = none := by
  cases hl : dictLookup d k with
  | none => rfl
  | some v =>
      exact absurd ((dictMem_iff_mem_map_fst d k).mp (by simp [dictMem, hl])) h

lemma dictLookup_dictDel_ne (d : List (α × β)) (k x : α) (hxk : x ≠ k) :
    dictLookup (dictDel d k) x = dictLookup d x := by
  induction d with
  | nil => simp [dictDel]
  | cons e es ih =>
      by_cases hek : e.1 = k
      · have hex : ¬ e.1 = x := fun h => hxk (h.symm.trans hek)
        simp [dictDel, dictLookup, hek, hex]
        rw [if_neg (fun h : k = x => hxk h.symm)]
      · by_cases hex : e.1 = x
        · simp only [dictDel, if_neg hek, dictLookup, if_pos hex]
        · simp only [dictDel, if_neg hek, dictLookup, if_neg hex, ih]

lemma dictDel_sublist (d : List (α × β)) (k : α) : List.Sublist (dictDel d k) d := by
  induction d with
  | nil => simp [dictDel]
  | cons e es ih =>
      by_cases hek : e.1 = k
      · simp [dictDel, hek]
      · simpa [dictDel, hek] using ih.cons₂ e

lemma dictLookup_dictDel_self (d : List (α × β)) (k : α)
    (hnd : (d.map Prod.fst).Nodup) : dictLookup (dictDel d k) k = none := by
  induction d with
  | nil => simp [dictDel, dictLookup]
  | cons e es ih =>
      simp only [List.map_cons, List.nodup_cons] at hnd
      by_cases hek : e.1 = k
      · subst hek
        simp only [dictDel, if_pos rfl]
        exact dictLookup_eq_none es e.1 hnd.1
      · simp [dictDel, dictLookup, hek, ih hnd.2]

lemma dictMem_dictDel (d : List (α × β)) (k x : α)
    (hnd : (d.map Prod.fst).Nodup) :
    dictMem (dictDel d k) x = true ↔ (dictMem d x = true ∧ x ≠ k) := by
  by_cases hxk : x = k
  · subst hxk
    unfold dictMem
    rw [dictLookup_dictDel_self d x hnd]
    simp
  · unfold dictMem
    rw [dictLookup_dictDel_ne d k x hxk]
    simp [hxk]

lemma dictSet_lookup_eq (d : List (α × β)) (k : α) (v : β)
    (h : dictLookup d k = some v) : dictSet d k v = d := by
  induction d with
  | nil => simp [dictLookup] at h
  | cons e es ih =>
      by_cases hek : e.1 = k
      · simp only [dictLookup, if_pos hek] at h
        cases e with | mk a b =>
        simp only at hek
        subst hek
        injection h with hbv
        subst hbv
        simp [dictSet]
      · simp only [dictLookup, if_neg hek] at h
        simp [dictSet, hek, ih h]

lemma dictSet_of_not_mem (d : List (α × β)) (k : α) (v : β)
    (h : dictMem d k = false) : dictSet d k v = d ++ [(k, v)] := by
  induction d with
  | nil => simp [dictSet]
  | cons e es ih =>
      by_cases hek : e.1 = k
      · exfalso
        simp [dictMem, dictLookup, hek] at h
      · simp only [dictMem, dictLookup, if_neg hek] at h
        simp [dictSet, hek, ih h]

end DictLemmas

lemma updateNode_ring (st : RingState) (i : Nat) (f : ServerNode → ServerNode) :
    (st.updateNode i f).ring = st.ring := rfl

lemma updateNode_sorted (st : RingState) (i : Nat) (f : ServerNode → ServerNode) :
    (st.updateNode i f).sorted_server_keys = st.sorted_server_keys := rfl

lemma updateNode_heap_self (st : RingState) (i : Nat) (f : ServerNode → ServerNode) :
    (st.updateNode i f).heap i = f (st.heap i) := by
  simp [RingState.updateNode]

lemma updateNode_heap_ne (st : RingState) (i j : Nat) (f : ServerNode → ServerNode)
    (h : j ≠ i) : (st.updateNode i f).heap j = st.heap j := by
  simp [RingState.updateNode, h]

lemma updateNode_eq_self (st : RingState) (i : Nat) (f : ServerNode → ServerNode)
    (h : f (st.heap i) = st.heap i) : st.updateNode i f = st := by
  cases st with
  | mk hp rg sk =>
      simp only [RingState.updateNode]
      congr 1
      funext j
      by_cases hj : j = i
      · subst hj; simpa using h
      · simp [hj]

lemma addRegister_heap (hashFn : String → Nat) (st : RingState) (nodeId : Nat) :
    (addRegister hashFn st nodeId).heap = st.heap := rfl

lemma insertPhase_ring (f t : Nat) (keys : List String) (st : RingState) :
    (insertPhase f t st keys).1.ring = st.ring := by
  induction keys generalizing st with
  | nil => rfl
  | cons key rest ih =>
      cases h : dictLookup (st.heap f).data key with
      | none => simp [insertPhase, h]
      | some v => simp [insertPhase, h, ih, updateNode_ring]

lemma insertPhase_sorted (f t : Nat) (keys : List String) (st : RingState) :
    (insertPhase f t st keys).1.sorted_server_keys = st.sorted_server_keys := by
  induction keys generalizing st with
  | nil => rfl
  | cons key rest ih =>
      cases h : dictLookup (st.heap f).data key with
      | none => simp [insertPhase, h]
      | some v => simp [insertPhase, h, ih, updateNode_sorted]

lemma insertPhase_heap_ne (f t i : Nat) (hit : i ≠ t) (keys : List String) (st : RingState) :
    (insertPhase f t st keys).1.heap i = st.heap i := by
  induction keys generalizing st with
  | nil => rfl
  | cons key rest ih =>
      cases h : dictLookup (st.heap f).data key with
      | none => simp [insertPhase, h]
      | some v =>
          simp only [insertPhase, h]
          rw [ih]
          exact updateNode_heap_ne st t i _ hit

lemma deletePhase_ring (f : Nat) (keys : List String) (st : RingState) :
    (deletePhase f st keys).1.ring = st.ring := by
  induction keys generalizing st with
  | nil => rfl
  | cons key rest ih =>
      rcases h : (st.heap f).remove_data key with ⟨n1, e⟩
      cases e with
      | none => simp [deletePhase, h, ih, updateNode_ring]
      | some err => simp [deletePhase, h]

lemma deletePhase_sorted (f : Nat) (keys : List String) (st : RingState) :
    (deletePhase f st keys).1.sorted_server_keys = st.sorted_server_keys := by
  induction keys generalizing st with
  | nil => rfl
  | cons key rest ih =>
      rcases h : (st.heap f).remove_data key with ⟨n1, e⟩
      cases e with
      | none => simp [deletePhase, h, ih, updateNode_sorted]
      | some err => simp [deletePhase, h]

lemma deletePhase_heap_ne (f i : Nat) (hif : i ≠ f) (keys : List String) (st : RingState) :
    (deletePhase f st keys).1.heap i = st.heap i := by
  induction keys generalizing st with
  | nil => rfl
  | cons key rest ih =>
      rcases h : (st.heap f).remove_data key with ⟨n1, e⟩
      cases e with
      | none =>
          simp only [deletePhase, h]
          rw [ih]
          exact updateNode_heap_ne st f i _ hif
      | some err => simp [deletePhase, h]

lemma transfer_ring (st : RingState) (f t : Nat) (keys : List String) :
    (transfer_data st f t keys).1.ring = st.ring := by
  unfold transfer_data
  rcases h : insertPhase f t st keys with ⟨st1, e⟩
  have h1 : st1.ring = st.ring := by
    have h2 := insertPhase_ring f t keys st
    rw [h] at h2
    exact h2
  cases e with
  | none =>
      simp only []
      rw [deletePhase_ring]
      exact h1
  | some err => exact h1

lemma transfer_sorted (st : RingState) (f t : Nat) (keys : List String) :
    (transfer_data st f t keys).1.sorted_server_keys = st.sorted_server_keys := by
  unfold transfer_data
  rcases h : insertPhase f t st keys with ⟨st1, e⟩
  have h1 : st1.sorted_server_keys = st.sorted_server_keys := by
    have h2 := insertPhase_sorted f t keys st
    rw [h] at h2
    exact h2
  cases e with
  | none =>
      simp only []
      rw [deletePhase_sorted]
      exact h1
  | some err => exact h1

lemma transfer_heap_ne (st : RingState) (f t i : Nat) (keys : List String)
    (hif : i ≠ f) (hit : i ≠ t) :
    (transfer_data st f t keys).1.heap i = st.heap i := by
  unfold transfer_data
  rcases h : insertPhase f t st keys with ⟨st1, e⟩
  have h1 : st1.heap i = st.heap i := by
    have h2 := insertPhase_heap_ne f t i hit keys st
    rw [h] at h2
    exact h2
  cases e with
  | none =>
      simp only []
      rw [deletePhase_heap_ne f i hif]
      exact h1
  | some err => exact h1

lemma dictMem_exists_lookup {d : List (String × Int)} {k : String}
    (h : dictMem d k = true) : ∃ v, dictLookup d k = some v := by
  unfold dictMem at h
  cases hl : dictLookup d k with
  | none => rw [hl] at h; simp at h
  | some v => exact ⟨v, rfl⟩

lemma insertPhase_ok (f t : Nat) (hft : f ≠ t) (keys : List String) (st : RingState)
    (hmem : ∀ k ∈ keys, dictMem (st.heap f).data k = true) :
    (insertPhase f t st keys).2 = none
    ∧ (insertPhase f t st keys).1.heap f = st.heap f
    ∧ ∀ x, DHolds (insertPhase f t st keys).1 t x ↔ (DHolds st t x ∨ x ∈ keys) := by
  induction keys generalizing st with
  | nil =>
      refine ⟨rfl, rfl, ?_⟩
      intro x
      simp [insertPhase]
  | cons key rest ih =>
      obtain ⟨v, hv⟩ := dictMem_exists_lookup (hmem key (by simp))
      have hheapf : (st.updateNode t (fun n => n.insert_data key v)).heap f = st.heap f :=
        updateNode_heap_ne st t f _ hft
      have hrest : ∀ k ∈ rest,
          dictMem ((st.updateNode t (fun n => n.insert_data key v)).heap f).data k = true := by
        intro k hk2
        rw [hheapf]
        exact hmem k (by simp [hk2])
      obtain ⟨ih1, ih2, ih3⟩ := ih (st.updateNode t (fun n => n.insert_data key v)) hrest
      simp only [insertPhase, hv]
      refine ⟨ih1, ih2.trans hheapf, ?_⟩
      intro x
      rw [ih3 x]
      have hstep : DHolds (st.updateNode t (fun n => n.insert_data key v)) t x
          ↔ (x = key ∨ DHolds st t x) := by
        unfold DHolds
        rw [updateNode_heap_self]
        unfold ServerNode.insert_data
        exact dictMem_dictSet (st.heap t).data key x v
      rw [hstep]
      simp only [List.mem_cons]
      tauto

lemma insertPhase_self (f : Nat) (keys : List String) (st : RingState)
    (hmem : ∀ k ∈ keys, dictMem (st.heap f).data k = true) :
    insertPhase f f st keys = (st, none) := by
  induction keys generalizing st with
  | nil => rfl
  | cons key rest ih =>
      obtain ⟨v, hv⟩ := dictMem_exists_lookup (hmem key (by simp))
      have hupd : st.updateNode f (fun n => n.insert_data key v) = st := by
        apply updateNode_eq_self
        unfold ServerNode.insert_data
        rw [dictSet_lookup_eq _ _ _ hv]
      simp only [insertPhase, hv]
      rw [hupd]
      exact ih st (fun k hk => hmem k (by simp [hk]))

lemma deletePhase_ok (f : Nat) (keys : List String) (st : RingState)
    (hnd : keys.Nodup)
    (hmem : ∀ k ∈ keys, dictMem (st.heap f).data k = true)
    (hnf : ((st.heap f).data.map Prod.fst).Nodup) :
    (deletePhase f st keys).2 = none
    ∧ ∀ x, DHolds (deletePhase f st keys).1 f x ↔ (DHolds st f x ∧ ¬ x ∈ keys) := by
  induction keys generalizing st with
  | nil =>
      refine ⟨rfl, ?_⟩
      intro x
      simp [deletePhase]
  | cons key rest ih =>
      have hk : dictMem (st.heap f).data key = true := hmem key (by simp)
      have hrd : (st.heap f).remove_data key =
          ({ st.heap f with data := dictDel (st.heap f).data key }, none) := by
        unfold ServerNode.remove_data
        rw [if_pos hk]
      have hndc := List.nodup_cons.mp hnd
      have hheap2 :
          (st.updateNode f (fun _ => { st.heap f with data := dictDel (st.heap f).data key })).heap f
            = { st.heap f with data := dictDel (st.heap f).data key } :=
        updateNode_heap_self st f _
      have hmem2 : ∀ k ∈ rest,
          dictMem ((st.updateNode f
            (fun _ => { st.heap f with data := dictDel (st.heap f).data key })).heap f).data k
            = true := by
        intro k hk2
        rw [hheap2]
        exact (dictMem_dictDel _ key k hnf).mpr
          ⟨hmem k (by simp [hk2]), fun h => hndc.1 (h ▸ hk2)⟩
      have hnf2 : (((st.updateNode f
          (fun _ => { st.heap f with data := dictDel (st.heap f).data key })).heap f).data.map
            Prod.fst).Nodup := by
        rw [hheap2]
        exact List.Nodup.sublist (List.Sublist.map Prod.fst (dictDel_sublist _ key)) hnf
      obtain ⟨ih1, ih2⟩ := ih _ hndc.2 hmem2 hnf2
      simp only [deletePhase, hrd]
      refine ⟨ih1, ?_⟩
      intro x
      rw [ih2 x]
      have hstep : DHolds (st.updateNode f
          (fun _ => { st.heap f with data := dictDel (st.heap f).data key })) f x
          ↔ (DHolds st f x ∧ x ≠ key) := by
        unfold DHolds
        rw [hheap2]
        exact dictMem_dictDel _ key x hnf
      rw [hstep]
      simp only [List.mem_cons]
      tauto

lemma transfer_ok_ne (st : RingState) (f t : Nat) (keys : List String)
    (hft : f ≠ t)
    (hsub : ∀ k ∈ keys, dictMem (st.heap f).data k = true)
    (hndk : keys.Nodup)
    (hnf : ((st.heap f).data.map Prod.fst).Nodup) :
    (transfer_data st f t keys).2 = none
    ∧ (∀ x, DHolds (transfer_data st f t keys).1 t x ↔ (DHolds st t x ∨ x ∈ keys))
    ∧ (∀ x, DHolds (transfer_data st f t keys).1 f x ↔ (DHolds st f x ∧ ¬ x ∈ keys)) := by
  obtain ⟨h1, h2, h3⟩ := insertPhase_ok f t hft keys st hsub
  have hpair : insertPhase f t st keys = ((insertPhase f t st keys).1, none) := by
    rw [← h1]
  have hgoal : transfer_data st f t keys = deletePhase f (insertPhase f t st keys).1 keys := by
    unfold transfer_data
    rw [hpair]
  have hsub2 : ∀ k ∈ keys, dictMem ((insertPhase f t st keys).1.heap f).data k = true := by
    intro k hk
    rw [h2]
    exact hsub k hk
  have hnf1 : (((insertPhase f t st keys).1.heap f).data.map Prod.fst).Nodup := by
    rw [h2]
    exact hnf
  obtain ⟨d1, d2⟩ := deletePhase_ok f keys (insertPhase f t st keys).1 hndk hsub2 hnf1
  rw [hgoal]
  refine ⟨d1, ?_, ?_⟩
  · intro x
    have hdel : (deletePhase f (insertPhase f t st keys).1 keys).1.heap t
        = (insertPhase f t st keys).1.heap t :=
      deletePhase_heap_ne f t (Ne.symm hft) keys (insertPhase f t st keys).1
    unfold DHolds
    rw [hdel]
    exact h3 x
  · intro x
    rw [d2 x]
    unfold DHolds
    rw [h2]

lemma transfer_ok_self (st : RingState) (f : Nat) (keys : List String)
    (hsub : ∀ k ∈ keys, dictMem (st.heap f).data k = true)
    (hndk : keys.Nodup)
    (hnf : ((st.heap f).data.map Prod.fst).Nodup) :
    (transfer_data st f f keys).2 = none
    ∧ ∀ x, DHolds (transfer_data st f f keys).1 f x ↔ (DHolds st f x ∧ ¬ x ∈ keys) := by
  have hgoal : transfer_data st f f keys = deletePhase f st keys := by
    unfold transfer_data
    rw [insertPhase_self f keys st hsub]
  rw [hgoal]
  exact deletePhase_ok f keys st hndk hsub hnf

lemma add_server_of_fresh (hashFn : String → Nat) (st : RingState) (nid sid : Nat)
    (hfresh : dictMem st.ring (hashFn (st.heap nid).name) = false)
    (hsucc : get_successor_node hashFn (addRegister hashFn st nid) nid = Except.ok sid) :
    add_server hashFn st nid =
      transfer_data (addRegister hashFn st nid) sid nid
        (keysToTransfer hashFn (addRegister hashFn st nid) sid nid) := by
  simp [add_server, hfresh, hsucc]

lemma add_server_holds (hashFn : String → Nat) (st : RingState) (nid sid : Nat)
    (hfresh : dictMem st.ring (hashFn (st.heap nid).name) = false)
    (hsucc : get_successor_node hashFn (addRegister hashFn st nid) nid = Except.ok sid)
    (hne : sid ≠ nid)
    (hnodup : ((st.heap sid).data.map Prod.fst).Nodup) :
    (add_server hashFn st nid).2 = none
    ∧ (∀ x, DHolds (add_server hashFn st nid).1 nid x ↔
        (DHolds st nid x ∨ (DHolds st sid x ∧ hashFn x < hashFn (st.heap nid).name)))
    ∧ (∀ x, DHolds (add_server hashFn st nid).1 sid x ↔
        (DHolds st sid x ∧ ¬ hashFn x < hashFn (st.heap nid).name))
    ∧ (∀ i, i ≠ nid → i ≠ sid → (add_server hashFn st nid).1.heap i = st.heap i)
    ∧ (add_server hashFn st nid).1.ring
        = dictSet st.ring (hashFn (st.heap nid).name) nid
    ∧ (add_server hashFn st nid).1.sorted_server_keys
        = insort st.sorted_server_keys (hashFn (st.heap nid).name) := by
  rw [add_server_of_fresh hashFn st nid sid hfresh hsucc]
  have hKmem : ∀ k ∈ keysToTransfer hashFn (addRegister hashFn st nid) sid nid,
      dictMem ((addRegister hashFn st nid).heap sid).data k = true := by
    intro k hk
    unfold keysToTransfer at hk
    exact (dictMem_iff_mem_map_fst _ _).mpr (List.mem_filter.mp hk).1
  have hKnd : (keysToTransfer hashFn (addRegister hashFn st nid) sid nid).Nodup := by
    unfold keysToTransfer
    exact hnodup.filter _
  obtain ⟨t1, t2, t3⟩ := transfer_ok_ne (addRegister hashFn st nid) sid nid
    (keysToTransfer hashFn (addRegister hashFn st nid) sid nid) hne hKmem hKnd hnodup
  have hKiff : ∀ x, x ∈ keysToTransfer hashFn (addRegister hashFn st nid) sid nid ↔
      (DHolds st sid x ∧ hashFn x < hashFn (st.heap nid).name) := by
    intro x
    unfold keysToTransfer
    rw [List.mem_filter]
    constructor
    · rintro ⟨hm, hp⟩
      exact ⟨(dictMem_iff_mem_map_fst _ _).mpr hm, by simpa using hp⟩
    · rintro ⟨hm, hp⟩
      exact ⟨(dictMem_iff_mem_map_fst _ _).mp hm, by simpa using hp⟩
  have hDH : ∀ i x, DHolds (addRegister hashFn st nid) i x ↔ DHolds st i x :=
    fun i x => Iff.rfl
  refine ⟨t1, ?_, ?_, ?_, ?_, ?_⟩
  · intro x
    rw [t2 x, hKiff x, hDH nid x]
  · intro x
    rw [t3 x, hDH sid x]
    have hx := hKiff x
    constructor
    · rintro ⟨ha, hb⟩
      refine ⟨ha, fun hlt => hb (hx.mpr ⟨ha, hlt⟩)⟩
    · rintro ⟨ha, hb⟩
      refine ⟨ha, fun hmemK => hb (hx.mp hmemK).2⟩
  · intro i hinid hisid
    rw [transfer_heap_ne _ _ _ _ _ hisid hinid]
    rfl
  · rw [transfer_ring]
    rfl
  · rw [transfer_sorted]
    rfl

lemma remove_server_success (hashFn : String → Nat) (st : RingState) (nid sid : Nat)
    (hsucc : get_successor_node hashFn st nid = Except.ok sid)
    (hne : sid ≠ nid)
    (hnf : ((st.heap nid).data.map Prod.fst).Nodup)
    (hmem : dictMem st.ring (hashFn (st.heap nid).name) = true) :
    remove_server hashFn st nid =
      ({ heap := (transfer_data st nid sid ((st.heap nid).data.map Prod.fst)).1.heap,
         ring := dictDel st.ring (hashFn (st.heap nid).name),
         sorted_server_keys :=
           removeFirst st.sorted_server_keys (hashFn (st.heap nid).name) },
       none) := by
  have hsub : ∀ k ∈ (st.heap nid).data.map Prod.fst, dictMem (st.heap nid).data k = true :=
    fun k hk => (dictMem_iff_mem_map_fst _ _).mpr hk
  obtain ⟨t1, _, _⟩ :=
    transfer_ok_ne st nid sid ((st.heap nid).data.map Prod.fst) (Ne.symm hne) hsub hnf hnf
  have hpair : transfer_data st nid sid ((st.heap nid).data.map Prod.fst)
      = ((transfer_data st nid sid ((st.heap nid).data.map Prod.fst)).1, none) := by
    rw [← t1]
  have hring := transfer_ring st nid sid ((st.heap nid).data.map Prod.fst)
  have hsorted := transfer_sorted st nid sid ((st.heap nid).data.map Prod.fst)
  unfold remove_server
  rw [hsucc]
  simp only []
  rw [hpair]
  simp only [hring, hsorted, hmem, if_true]

lemma remove_server_holds (hashFn : String → Nat) (st : RingState) (nid sid : Nat)
    (hsucc : get_successor_node hashFn st nid = Except.ok sid)
    (hne : sid ≠ nid)
    (hnf : ((st.heap nid).data.map Prod.fst).Nodup)
    (hmem : dictMem st.ring (hashFn (st.heap nid).name) = true) :
    (remove_server hashFn st nid).2 = none
    ∧ (∀ x, ¬ DHolds (remove_server hashFn st nid).1 nid x)
    ∧ (∀ x, DHolds (remove_server hashFn st nid).1 sid x ↔
        (DHolds st sid x ∨ DHolds st nid x))
    ∧ (∀ i, i ≠ nid → i ≠ sid → (remove_server hashFn st nid).1.heap i = st.heap i)
    ∧ (remove_server hashFn st nid).1.ring = dictDel st.ring (hashFn (st.heap nid).name)
    ∧ (remove_server hashFn st nid).1.sorted_server_keys
        = removeFirst st.sorted_server_keys (hashFn (st.heap nid).name) := by
  have hsub : ∀ k ∈ (st.heap nid).data.map Prod.fst, dictMem (st.heap nid).data k = true :=
    fun k hk => (dictMem_iff_mem_map_fst _ _).mpr hk
  obtain ⟨t1, t2, t3⟩ :=
    transfer_ok_ne st nid sid ((st.heap nid).data.map Prod.fst) (Ne.symm hne) hsub hnf hnf
  rw [remove_server_success hashFn st nid sid hsucc hne hnf hmem]
  have hmemiff : ∀ x, x ∈ (st.heap nid).data.map Prod.fst ↔ DHolds st nid x := by
    intro x
    exact (dictMem_iff_mem_map_fst _ _).symm
  refine ⟨rfl, ?_, ?_, ?_, rfl, rfl⟩
  · intro x hx
    have hx2 := (t3 x).mp hx
    exact hx2.2 ((hmemiff x).mpr hx2.1)
  · intro x
    have := t2 x
    rw [hmemiff x] at this
    exact this
  · intro i hinid hisid
    exact transfer_heap_ne st nid sid i _ hinid hisid

lemma bisect_right_all_le (l : List Nat) (p : Nat) (h : ∀ r ∈ l, r ≤ p) :
    bisect_right l p = l.length := by
  induction l with
  | nil => rfl
  | cons y ys ih =>
      have hy : ¬ p < y := not_lt.mpr (h y (by simp))
      simp [bisect_right, hy, ih (fun r hr => h r (by simp [hr]))]

lemma bisect_right_min (l : List Nat) (p q : Nat)
    (hs : l.Sorted (· < ·)) (hq : q ∈ l) (hpq : p < q)
    (hmin : ∀ r ∈ l, p < r → q ≤ r) :
    bisect_right l p < l.length ∧ l.getD (bisect_right l p) 0 = q := by
  induction l with
  | nil => cases hq
  | cons y ys ih =>
      rw [List.sorted_cons] at hs
      by_cases hpy : p < y
      · have hqy : q = y := by
          have h1 : q ≤ y := hmin y (by simp) hpy
          rcases List.mem_cons.mp hq with h | h
          · exact h
          · exact absurd (hs.1 q h) (not_lt.mpr h1)
        simp [bisect_right, hpy, hqy]
      · have hqys : q ∈ ys := by
          rcases List.mem_cons.mp hq with h | h
          · exfalso
            exact hpy (h ▸ hpq)
          · exact h
        obtain ⟨ih1, ih2⟩ := ih hs.2 hqys (fun r hr hpr => hmin r (by simp [hr]) hpr)
        constructor
        · simp only [bisect_right, if_neg hpy, List.length_cons]
          omega
        · simp only [bisect_right, if_neg hpy, List.getD_cons_succ]
          exact ih2

lemma mem_insort (l : List Nat) (a x : Nat) :
    x ∈ insort l a ↔ (x = a ∨ x ∈ l) := by
  induction l with
  | nil => simp [insort]
  | cons y ys ih =>
      by_cases hay : a < y
      · simp [insort, hay]
      · simp only [insort, if_neg hay, List.mem_cons, ih]
        tauto

lemma sorted_insort (l : List Nat) (a : Nat)
    (hs : l.Sorted (· < ·)) (ha : ¬ a ∈ l) :
    (insort l a).Sorted (· < ·) := by
  induction l with
  | nil => simp [insort]
  | cons y ys ih =>
      rw [List.sorted_cons] at hs
      by_cases hay : a < y
      · rw [insort, if_pos hay, List.sorted_cons]
        refine ⟨?_, List.sorted_cons.mpr hs⟩
        intro b hb
        rcases List.mem_cons.mp hb with h | h
        · exact h ▸ hay
        · exact hay.trans (hs.1 b h)
      · have hya : y < a := by
          rcases Nat.lt_trichotomy y a with h | h | h
          · exact h
          · exact absurd (h ▸ List.mem_cons_self y ys) ha
          · exact absurd h hay
        rw [insort, if_neg hay, List.sorted_cons]
        refine ⟨?_, ih hs.2 (fun h => ha (List.mem_cons.mpr (Or.inr h)))⟩
        intro b hb
        rcases (mem_insort ys a b).mp hb with h | h
        · exact h ▸ hya
        · exact hs.1 b h

lemma removeFirst_sublist (l : List Nat) (a : Nat) :
    List.Sublist (removeFirst l a) l := by
  induction l with
  | nil => simp [removeFirst]
  | cons y ys ih =>
      by_cases hya : y = a
      · simp [removeFirst, hya]
      · simpa [removeFirst, hya] using ih.cons₂ y

lemma mem_removeFirst (l : List Nat) (a x : Nat) (hnd : l.Nodup) :
    x ∈ removeFirst l a ↔ (x ∈ l ∧ x ≠ a) := by
  induction l with
  | nil => simp [removeFirst]
  | cons y ys ih =>
      rw [List.nodup_cons] at hnd
      by_cases hya : y = a
      · subst hya
        rw [removeFirst, if_pos rfl]
        constructor
        · intro hx
          refine ⟨List.mem_cons.mpr (Or.inr hx), ?_⟩
          intro hxy
          exact hnd.1 (hxy ▸ hx)
        · rintro ⟨hx, hxy⟩
          rcases List.mem_cons.mp hx with h | h
          · exact absurd h hxy
          · exact h
      · rw [removeFirst, if_neg hya]
        simp only [List.mem_cons, ih hnd.2]
        constructor
        · rintro (h | ⟨h1, h2⟩)
          · exact ⟨Or.inl h, fun hxa => hya (h ▸ hxa)⟩
          · exact ⟨Or.inr h1, h2⟩
        · rintro ⟨h | h, h2⟩
          · exact Or.inl h
          · exact Or.inr ⟨h, h2⟩

lemma holders_pres (P Q : Nat → Prop) (src dst : Nat) (C : Prop) (ids : List Nat)
    (hCsrc : C → P src)
    (hsrc : Q src ↔ (P src ∧ ¬ C))
    (hdst : Q dst ↔ (P dst ∨ C))
    (hoth : ∀ i, i ≠ src → i ≠ dst → (Q i ↔ P i))
    (hs : src ∈ ids) (hd : dst ∈ ids) :
    ((∃ i ∈ ids, Q i) ↔ (∃ i ∈ ids, P i))
    ∧ (AtMostOne P ids → AtMostOne Q ids) := by
  have key : ∀ x, x ∈ ids → Q x → (P x ∨ (x = dst ∧ C)) := by
    intro x hx hQx
    by_cases hx1 : x = src
    · subst hx1
      exact Or.inl (hsrc.mp hQx).1
    by_cases hx2 : x = dst
    · subst hx2
      rcases hdst.mp hQx with h | h
      · exact Or.inl h
      · exact Or.inr ⟨rfl, h⟩
    · exact Or.inl ((hoth x hx1 hx2).mp hQx)
  constructor
  · constructor
    · rintro ⟨i, hi, hQi⟩
      rcases key i hi hQi with h | ⟨rfl, hC⟩
      · exact ⟨i, hi, h⟩
      · exact ⟨src, hs, hCsrc hC⟩
    · rintro ⟨i, hi, hPi⟩
      by_cases hx1 : i = src
      · subst hx1
        by_cases hC : C
        · exact ⟨dst, hd, hdst.mpr (Or.inr hC)⟩
        · exact ⟨i, hs, hsrc.mpr ⟨hPi, hC⟩⟩
      by_cases hx2 : i = dst
      · subst hx2
        exact ⟨i, hd, hdst.mpr (Or.inl hPi)⟩
      · exact ⟨i, hi, (hoth i hx1 hx2).mpr hPi⟩
  · intro hU i hi j hj hQi hQj
    rcases key i hi hQi with hPi | ⟨hidst, hC⟩
    · rcases key j hj hQj with hPj | ⟨hjdst, hC⟩
      · exact hU i hi j hj hPi hPj
      · subst hjdst
        have hisrc : i = src := hU i hi src hs hPi (hCsrc hC)
        subst hisrc
        exact absurd hC (hsrc.mp hQi).2
    · subst hidst
      rcases key j hj hQj with hPj | ⟨hjdst, hC2⟩
      · have hjsrc : j = src := hU j hj src hs hPj (hCsrc hC)
        subst hjsrc
        exact absurd hC (hsrc.mp hQj).2
      · exact hjdst.symm

deriving instance DecidableEq for Except

/-- Claim C3 (code bug evidence): on a ring whose sole node (id 0, position
10) holds one key, `remove_server` of that node does not fail with a
LastNodeError and does not leave the state unchanged: it completes without
error, the successor lookup yields the node itself, the self-transfer wipes
the store of the node, and the ring becomes empty. -/
theorem C3_sole_node_removal_wipes_ring :
    (remove_server hashT stSolo 0).2 = none
    ∧ (remove_server hashT stSolo 0).1.ring = []
    ∧ (remove_server hashT stSolo 0).1.sorted_server_keys = []
    ∧ ((remove_server hashT stSolo 0).1.heap 0).data = []
    ∧ get_successor_node hashT stSolo 0 = Except.ok 0
    ∧ (stSolo.heap 0).data = [("k", 1)] := by
  decide

/-- Claim C7 (code bug evidence): `remove_server` on a node object (id 1)
whose position 20 is not registered does fail with the KeyError of
`del self.ring[...]` (the NodeNotFoundError of the spec), but only after the
transfer already moved the data of the node into the successor (id 0): the
failing call mutates both stores while leaving the ring dict itself
unchanged. -/
theorem C7_remove_unregistered_mutates_then_fails :
    (remove_server hashT stC7 1).2 = some (PyError.ringKeyError 20)
    ∧ ((remove_server hashT stC7 1).1.heap 0).data = [("k", 1)]
    ∧ ((remove_server hashT stC7 1).1.heap 1).data = []
    ∧ (remove_server hashT stC7 1).1.ring = [(30, 0)]
    ∧ (stC7.heap 0).data = []
    ∧ (stC7.heap 1).data = [("k", 1)] := by
  decide

/-- Claim C6: `add_server` on a node whose name hashes to an occupied
position fails with the duplicate-position error and returns the state
completely unchanged: no registration is replaced and no key moves. -/
theorem C6_duplicate_position_unchanged (hashFn : String → Nat) (st : RingState) (nid : Nat)
    (h : dictMem st.ring (hashFn (st.heap nid).name) = true) :
    add_server hashFn st nid =
      (st, some (PyError.duplicatePositionError (hashFn (st.heap nid).name))) := by
  simp [add_server, h]

/-- Witness for C6: the node named dupP hashes to the occupied position 50
of stC2 and its registration attempt fails with the state unchanged. -/
theorem C6_duplicate_position_witness :
    dictMem stC2.ring (hashT (stC2.heap 3).name) = true
    ∧ add_server hashT stC2 3 =
        (stC2, some (PyError.duplicatePositionError (hashT (stC2.heap 3).name))) :=
  ⟨by decide, C6_duplicate_position_unchanged hashT stC2 3 (by decide)⟩

/-- Claim C10: `transfer_data` with the same node as source and destination
completes without error and ends with every listed key absent from the store
of that node: the insert loop rewrites each key in place and the delete loop
then removes it, so a self-transfer deletes the listed data. -/
theorem C10_self_transfer_deletes (st : RingState) (m : Nat) (keys : List String)
    (h1 : ∀ k ∈ keys, dictMem (st.heap m).data k = true)
    (h2 : keys.Nodup)
    (h3 : ((st.heap m).data.map Prod.fst).Nodup) :
    (transfer_data st m m keys).2 = none
    ∧ ∀ k ∈ keys, ¬ DHolds (transfer_data st m m keys).1 m k := by
  obtain ⟨ha, hb⟩ := transfer_ok_self st m keys h1 h2 h3
  refine ⟨ha, ?_⟩
  intro k hk hD
  exact ((hb k).mp hD).2 hk

/-- Witness for C10: the self-transfer of the key list consisting of the key
named k on the single node of stC10 deletes that key. -/
theorem C10_self_transfer_witness :
    (∀ k ∈ ["k"], dictMem (stC10.heap 0).data k = true)
    ∧ (transfer_data stC10 0 0 ["k"]).2 = none
    ∧ ¬ DHolds (transfer_data stC10 0 0 ["k"]).1 0 "k" := by
  refine ⟨by decide, ?_, ?_⟩
  · exact (C10_self_transfer_deletes stC10 0 ["k"] (by decide) (by decide) (by decide)).1
  · exact (C10_self_transfer_deletes stC10 0 ["k"] (by decide) (by decide) (by decide)).2
      "k" (by decide)

/-- Claim C4 (amended): every placement or lookup operation on a ring with
zero registered positions fails, but with the ZeroDivisionError of the
modulo by the zero length of `sorted_server_keys`, leaving the state
unchanged. -/
theorem C4_empty_ring_fails_zero_division (hashFn : String → Nat) (st : RingState)
    (nid : Nat) (key : String) (value : Int)
    (h : st.sorted_server_keys = []) :
    get_successor_node hashFn st nid = Except.error PyError.zeroDivisionError
    ∧ add_data hashFn st key value = (st, some PyError.zeroDivisionError)
    ∧ remove_data hashFn st key = (st, some PyError.zeroDivisionError) := by
  refine ⟨?_, ?_, ?_⟩ <;> simp [get_successor_node, add_data, remove_data, h]

/-- Counterexample for C4 as stated: on the empty ring the operations fail
with the ZeroDivisionError of the unguarded modulo, not with the
EmptyRingError named by the claim. -/
theorem C4_empty_ring_not_emptyRingError :
    get_successor_node hashT stEmpty 0 = Except.error PyError.zeroDivisionError
    ∧ get_successor_node hashT stEmpty 0 ≠ Except.error PyError.emptyRingError
    ∧ (add_data hashT stEmpty "k" 1).2 = some PyError.zeroDivisionError
    ∧ (add_data hashT stEmpty "k" 1).2 ≠ some PyError.emptyRingError
    ∧ (remove_data hashT stEmpty "k").2 = some PyError.zeroDivisionError
    ∧ (remove_data hashT stEmpty "k").2 ≠ some PyError.emptyRingError := by
  decide

/-- Witness for the amended C4 at the freshly constructed empty ring. -/
theorem C4_empty_ring_witness :
    stEmpty.sorted_server_keys = []
    ∧ get_successor_node hashT stEmpty 0 = Except.error PyError.zeroDivisionError
    ∧ add_data hashT stEmpty "q" 2 = (stEmpty, some PyError.zeroDivisionError)
    ∧ remove_data hashT stEmpty "q" = (stEmpty, some PyError.zeroDivisionError) :=
  ⟨rfl, (C4_empty_ring_fails_zero_division hashT stEmpty 0 "q" 2 rfl).1,
   (C4_empty_ring_fails_zero_division hashT stEmpty 0 "q" 2 rfl).2.1,
   (C4_empty_ring_fails_zero_division hashT stEmpty 0 "q" 2 rfl).2.2⟩

/-- Counterexample for C1 as stated: removing the sole node of stSolo is a
completed `remove_server` call, yet the total key population of the ring
drops from the single key named k to nothing, and the key is afterwards held
by no node at all. -/
theorem C1_total_keys_changed_by_sole_removal :
    ringKeys stSolo = ["k"]
    ∧ (remove_server hashT stSolo 0).2 = none
    ∧ ringKeys (remove_server hashT stSolo 0).1 = []
    ∧ ¬ DHolds (remove_server hashT stSolo 0).1 0 "k" := by
  decide

/-- Counterexample for C2 as stated: in stC2 the successor (id 1) holds a
key named p whose hash 100 equals the position of the newly added node
(id 2) and exceeds the predecessor position 50, so the claim requires it to
move; the completed `add_server` call leaves it on the successor because the
code compares with strict less-than. -/
theorem C2_boundary_key_not_transferred :
    hashT "p" = hashT (stC2.heap 2).name
    ∧ DHolds stC2 1 "p"
    ∧ (add_server hashT stC2 2).2 = none
    ∧ ¬ DHolds (add_server hashT stC2 2).1 2 "p"
    ∧ DHolds (add_server hashT stC2 2).1 1 "p" := by
  decide

/-- Counterexample for C9 as stated: in stCol the unregistered node object
id 1 hashes to position 30, which is held by the different node id 0; the
`remove_server` call on id 1 has successor id 2, completes, and deregisters
id 0 — a node other than the argument and its successor loses its ring
position. -/
theorem C9_collision_deregisters_other_node :
    get_successor_node hashT stCol 1 = Except.ok 2
    ∧ (remove_server hashT stCol 1).2 = none
    ∧ dictLookup stCol.ring 30 = some 0
    ∧ dictLookup (remove_server hashT stCol 1).1.ring 30 = none := by
  decide

/-- Claim C5: on a non-empty ring whose position list is sorted,
`get_successor_node` returns the node registered at the smallest position
strictly greater than the hashed name of the queried node, and wraps to the
node at the smallest registered position when no registered position is
greater. -/
theorem C5_get_successor_spec :
    (∀ (hashFn : String → Nat) (st : RingState) (nodeId q i : Nat),
      st.sorted_server_keys.Sorted (· < ·) →
      q ∈ st.sorted_server_keys →
      hashFn (st.heap nodeId).name < q →
      (∀ r ∈ st.sorted_server_keys, hashFn (st.heap nodeId).name < r → q ≤ r) →
      dictLookup st.ring q = some i →
      get_successor_node hashFn st nodeId = Except.ok i)
    ∧ (∀ (hashFn : String → Nat) (st : RingState) (nodeId q i : Nat),
      st.sorted_server_keys.Sorted (· < ·) →
      q ∈ st.sorted_server_keys →
      (∀ r ∈ st.sorted_server_keys, r ≤ hashFn (st.heap nodeId).name) →
      (∀ r ∈ st.sorted_server_keys, q ≤ r) →
      dictLookup st.ring q = some i →
      get_successor_node hashFn st nodeId = Except.ok i) := by
  constructor
  · intro hashFn st nodeId q i hs hq hpq hmin hlook
    have hlen : ¬ st.sorted_server_keys.length = 0 := by
      intro h0
      rw [List.length_eq_zero] at h0
      rw [h0] at hq
      cases hq
    obtain ⟨hb1, hb2⟩ := bisect_right_min st.sorted_server_keys
      (hashFn (st.heap nodeId).name) q hs hq hpq hmin
    unfold get_successor_node
    rw [if_neg hlen, Nat.mod_eq_of_lt hb1, hb2, hlook]
  · intro hashFn st nodeId q i hs hq hall hmin hlook
    have hlen : ¬ st.sorted_server_keys.length = 0 := by
      intro h0
      rw [List.length_eq_zero] at h0
      rw [h0] at hq
      cases hq
    have hb := bisect_right_all_le st.sorted_server_keys (hashFn (st.heap nodeId).name) hall
    have hget : st.sorted_server_keys.getD 0 0 = q := by
      cases hl : st.sorted_server_keys with
      | nil =>
          rw [hl] at hq
          cases hq
      | cons y ys =>
          have hqy : q = y := by
            have h1 : q ≤ y := hmin y (by rw [hl]; simp)
            rcases List.mem_cons.mp (hl ▸ hq) with h | h
            · exact h
            · have h2 := (List.sorted_cons.mp (hl ▸ hs)).1 q h
              omega
          simp [hqy]
    unfold get_successor_node
    rw [if_neg hlen, hb, Nat.mod_self, hget, hlook]

/-- Witness for C5 on stC5: the position 100 has circular successor at
position 200 (node id 1), and the position 300, beyond every registered
position, wraps to the smallest position 50 (node id 0). -/
theorem C5_get_successor_witness :
    get_successor_node hashT stC5 3 = Except.ok 1
    ∧ get_successor_node hashT stC5 4 = Except.ok 0 := by
  constructor
  · exact C5_get_successor_spec.1 hashT stC5 3 200 1 (by decide) (by decide) (by decide)
      (by decide) (by decide)
  · exact C5_get_successor_spec.2 hashT stC5 4 50 0 (by decide) (by decide) (by decide)
      (by decide) (by decide)

/-- Claim C2 (amended): a successful `add_server` on a non-empty ring with a
distinct successor transfers exactly the keys of the successor whose hash is
strictly less than the position of the new node — the convention of the code
is that a node owns the half-open arc from its predecessor (inclusive) up to
its own position (exclusive), so a key whose hash equals the new position
stays on the successor; the stores of all other nodes do not change. -/
theorem C2_transfer_exactly_below_position (hashFn : String → Nat) (st : RingState)
    (nid sid : Nat)
    (hfresh : dictMem st.ring (hashFn (st.heap nid).name) = false)
    (hsucc : get_successor_node hashFn (addRegister hashFn st nid) nid = Except.ok sid)
    (hne : sid ≠ nid)
    (hnodup : ((st.heap sid).data.map Prod.fst).Nodup) :
    (add_server hashFn st nid).2 = none
    ∧ (∀ x, DHolds (add_server hashFn st nid).1 nid x ↔
        (DHolds st nid x ∨ (DHolds st sid x ∧ hashFn x < hashFn (st.heap nid).name)))
    ∧ (∀ x, DHolds (add_server hashFn st nid).1 sid x ↔
        (DHolds st sid x ∧ ¬ hashFn x < hashFn (st.heap nid).name))
    ∧ (∀ i, i ≠ nid → i ≠ sid → (add_server hashFn st nid).1.heap i = st.heap i) := by
  obtain ⟨h1, h2, h3, h4, _, _⟩ := add_server_holds hashFn st nid sid hfresh hsucc hne hnodup
  exact ⟨h1, h2, h3, h4⟩

/-- Witness for the amended C2: adding node id 2 (position 100) to stC2
succeeds, and the key named q (hash 70, strictly below 100) ends on the new
node and leaves the successor. -/
theorem C2_transfer_witness :
    (add_server hashT stC2 2).2 = none
    ∧ DHolds (add_server hashT stC2 2).1 2 "q"
    ∧ ¬ DHolds (add_server hashT stC2 2).1 1 "q" := by
  have h := C2_transfer_exactly_below_position hashT stC2 2 1 (by decide) (by decide)
    (by decide) (by decide)
  refine ⟨h.1, ?_, ?_⟩
  · exact (h.2.1 "q").mpr (Or.inr ⟨by decide, by decide⟩)
  · intro hd
    exact ((h.2.2.1 "q").mp hd).2 (by decide)

/-- Claim C1 (amended): for a completed `add_server` or `remove_server`
whose successor is a node distinct from the argument node (which excludes
the sole-node self-transfer cases refuted by the counterexample), and sets
of node ids containing both the argument and the successor, the set of nodes
holding any given key is preserved as a whole: some listed node holds the
key after the call exactly when some listed node held it before, and if at
most one listed node held it before then at most one holds it after. -/
theorem C1_key_conservation_amended :
    (∀ (hashFn : String → Nat) (st : RingState) (nid sid : Nat) (ids : List Nat) (k : String),
      dictMem st.ring (hashFn (st.heap nid).name) = false →
      get_successor_node hashFn (addRegister hashFn st nid) nid = Except.ok sid →
      sid ≠ nid →
      ((st.heap sid).data.map Prod.fst).Nodup →
      nid ∈ ids → sid ∈ ids →
      (((∃ i ∈ ids, DHolds (add_server hashFn st nid).1 i k) ↔ (∃ i ∈ ids, DHolds st i k))
        ∧ (AtMostOne (fun i => DHolds st i k) ids →
           AtMostOne (fun i => DHolds (add_server hashFn st nid).1 i k) ids)))
    ∧ (∀ (hashFn : String → Nat) (st : RingState) (nid sid : Nat) (ids : List Nat) (k : String),
      get_successor_node hashFn st nid = Except.ok sid →
      sid ≠ nid →
      ((st.heap nid).data.map Prod.fst).Nodup →
      dictMem st.ring (hashFn (st.heap nid).name) = true →
      nid ∈ ids → sid ∈ ids →
      (((∃ i ∈ ids, DHolds (remove_server hashFn st nid).1 i k) ↔ (∃ i ∈ ids, DHolds st i k))
        ∧ (AtMostOne (fun i => DHolds st i k) ids →
           AtMostOne (fun i => DHolds (remove_server hashFn st nid).1 i k) ids))) := by
  constructor
  · intro hashFn st nid sid ids k hfresh hsucc hne hnodup hnid hsid
    obtain ⟨h1, h2, h3, h4, _, _⟩ := add_server_holds hashFn st nid sid hfresh hsucc hne hnodup
    apply holders_pres (fun i => DHolds st i k)
      (fun i => DHolds (add_server hashFn st nid).1 i k) sid nid
      (DHolds st sid k ∧ hashFn k < hashFn (st.heap nid).name) ids
    · exact fun hC => hC.1
    · rw [h3 k]
      constructor
      · rintro ⟨ha, hb⟩
        exact ⟨ha, fun hC => hb hC.2⟩
      · rintro ⟨ha, hb⟩
        exact ⟨ha, fun hlt => hb ⟨ha, hlt⟩⟩
    · exact h2 k
    · intro i hisrc hidst
      unfold DHolds
      rw [h4 i hidst hisrc]
    · exact hsid
    · exact hnid
  · intro hashFn st nid sid ids k hsucc hne hnf hmem hnid hsid
    obtain ⟨h1, h2, h3, h4, _, _⟩ := remove_server_holds hashFn st nid sid hsucc hne hnf hmem
    apply holders_pres (fun i => DHolds st i k)
      (fun i => DHolds (remove_server hashFn st nid).1 i k) nid sid
      (DHolds st nid k) ids
    · exact id
    · constructor
      · intro h
        exact absurd h (h2 k)
      · rintro ⟨ha, hb⟩
        exact absurd ha hb
    · exact h3 k
    · intro i hisrc hidst
      unfold DHolds
      rw [h4 i hisrc hidst]
    · exact hnid
    · exact hsid

/-- Witness for the amended C1: removing node id 0 from the two-node ring
stW1 moves the key named q to node id 1: over the id set containing both
nodes the key population and its uniqueness are preserved. -/
theorem C1_key_conservation_witness :
    ((∃ i ∈ [0, 1], DHolds (remove_server hashT stW1 0).1 i "q")
      ↔ (∃ i ∈ [0, 1], DHolds stW1 i "q"))
    ∧ (AtMostOne (fun i => DHolds stW1 i "q") [0, 1] →
       AtMostOne (fun i => DHolds (remove_server hashT stW1 0).1 i "q") [0, 1]) :=
  C1_key_conservation_amended.2 hashT stW1 0 1 [0, 1] "q" (by decide) (by decide)
    (by decide) (by decide) (by simp) (by simp)

/-- Claim C9 (amended): for any `add_server` or `remove_server` call, the
store of every node other than the argument and its successor is unchanged
(names included, since the whole node object is unchanged), and every ring
registration at a position other than the hashed name of the argument is
unchanged.  The restriction to other positions is forced: the counterexample
shows a name-collision `remove_server` deregistering a third node that sits
at the hashed position of the argument. -/
theorem C9_frame_amended :
    (∀ (hashFn : String → Nat) (st : RingState) (nid sid : Nat),
      get_successor_node hashFn (addRegister hashFn st nid) nid = Except.ok sid →
      (∀ i, i ≠ nid → i ≠ sid → (add_server hashFn st nid).1.heap i = st.heap i)
      ∧ (∀ p, p ≠ hashFn (st.heap nid).name →
          dictLookup (add_server hashFn st nid).1.ring p = dictLookup st.ring p))
    ∧ (∀ (hashFn : String → Nat) (st : RingState) (nid sid : Nat),
      get_successor_node hashFn st nid = Except.ok sid →
      (∀ i, i ≠ nid → i ≠ sid → (remove_server hashFn st nid).1.heap i = st.heap i)
      ∧ (∀ p, p ≠ hashFn (st.heap nid).name →
          dictLookup (remove_server hashFn st nid).1.ring p = dictLookup st.ring p)) := by
  constructor
  · intro hashFn st nid sid hsucc
    by_cases hfresh : dictMem st.ring (hashFn (st.heap nid).name) = true
    · have heq : add_server hashFn st nid =
          (st, some (PyError.duplicatePositionError (hashFn (st.heap nid).name))) := by
        simp [add_server, hfresh]
      rw [heq]
      exact ⟨fun i _ _ => rfl, fun p _ => rfl⟩
    · have hfresh2 : dictMem st.ring (hashFn (st.heap nid).name) = false := by
        revert hfresh
        cases dictMem st.ring (hashFn (st.heap nid).name) <;> simp
      rw [add_server_of_fresh hashFn st nid sid hfresh2 hsucc]
      constructor
      · intro i hinid hisid
        rw [transfer_heap_ne _ _ _ _ _ hisid hinid]
        rfl
      · intro p hp
        rw [transfer_ring]
        show dictLookup (dictSet st.ring (hashFn (st.heap nid).name) nid) p
          = dictLookup st.ring p
        rw [dictLookup_dictSet, if_neg hp]
  · intro hashFn st nid sid hsucc
    rcases hT : transfer_data st nid sid ((st.heap nid).data.map Prod.fst) with ⟨st1, e⟩
    have hheap : ∀ i, i ≠ nid → i ≠ sid → st1.heap i = st.heap i := by
      intro i hi1 hi2
      have h := transfer_heap_ne st nid sid i ((st.heap nid).data.map Prod.fst) hi1 hi2
      rw [hT] at h
      exact h
    have hring : st1.ring = st.ring := by
      have h := transfer_ring st nid sid ((st.heap nid).data.map Prod.fst)
      rw [hT] at h
      exact h
    cases e with
    | some err =>
        have heq : remove_server hashFn st nid = (st1, some err) := by
          simp [remove_server, hsucc, hT]
        rw [heq]
        exact ⟨fun i hi1 hi2 => hheap i hi1 hi2, fun p _ => by rw [hring]⟩
    | none =>
        by_cases hmem : dictMem st1.ring (hashFn (st.heap nid).name) = true
        · have heq : remove_server hashFn st nid =
              ({ heap := st1.heap,
                 ring := dictDel st1.ring (hashFn (st.heap nid).name),
                 sorted_server_keys :=
                   removeFirst st1.sorted_server_keys (hashFn (st.heap nid).name) }, none) := by
            simp [remove_server, hsucc, hT, hmem]
          rw [heq]
          refine ⟨fun i hi1 hi2 => hheap i hi1 hi2, ?_⟩
          intro p hp
          show dictLookup (dictDel st1.ring (hashFn (st.heap nid).name)) p
            = dictLookup st.ring p
          rw [dictLookup_dictDel_ne _ _ _ hp, hring]
        · have heq : remove_server hashFn st nid =
              (st1, some (PyError.ringKeyError (hashFn (st.heap nid).name))) := by
            simp [remove_server, hsucc, hT, hmem]
          rw [heq]
          exact ⟨fun i hi1 hi2 => hheap i hi1 hi2, fun p _ => by rw [hring]⟩

/-- Witness for the amended C9: in the collision removal on stCol, the third
node id 0 keeps its store, and the registration at position 300 (different
from the hashed position 30 of the argument) is untouched. -/
theorem C9_frame_witness :
    (remove_server hashT stCol 1).1.heap 0 = stCol.heap 0
    ∧ dictLookup (remove_server hashT stCol 1).1.ring 300 = dictLookup stCol.ring 300 := by
  have h := C9_frame_amended.2 hashT stCol 1 2 (by decide)
  exact ⟨h.1 0 (by decide) (by decide), h.2 300 (by decide)⟩

lemma SortedInv_congr (st st2 : RingState)
    (hr : st2.ring = st.ring)
    (hsk : st2.sorted_server_keys = st.sorted_server_keys)
    (h : SortedInv st) : SortedInv st2 := by
  unfold SortedInv
  rw [hr, hsk]
  exact h

lemma SortedInv_addRegister (hashFn : String → Nat) (st : RingState) (nid : Nat)
    (hInv : SortedInv st)
    (hfresh : dictMem st.ring (hashFn (st.heap nid).name) = false) :
    SortedInv (addRegister hashFn st nid) := by
  obtain ⟨hs, hnd, hiff⟩ := hInv
  have hnotmem : ¬ (hashFn (st.heap nid).name) ∈ st.sorted_server_keys := by
    intro hmem
    have h1 := (hiff _).mp hmem
    unfold dictMem at hfresh
    rw [h1] at hfresh
    cases hfresh
  refine ⟨sorted_insort _ _ hs hnotmem, ?_, ?_⟩
  · show ((dictSet st.ring (hashFn (st.heap nid).name) nid).map Prod.fst).Nodup
    rw [dictSet_of_not_mem _ _ _ hfresh, List.map_append]
    rw [List.nodup_append]
    refine ⟨hnd, by simp, ?_⟩
    intro a ha hb
    simp only [List.map_cons, List.map_nil, List.mem_singleton] at hb
    have h2 : dictMem st.ring a = true := (dictMem_iff_mem_map_fst _ _).mpr ha
    unfold dictMem at h2
    have h3 := (hiff a).mpr h2
    rw [hb] at h3
    exact hnotmem h3
  · intro p
    show p ∈ insort st.sorted_server_keys (hashFn (st.heap nid).name)
      ↔ (dictLookup (dictSet st.ring (hashFn (st.heap nid).name) nid) p).isSome = true
    rw [mem_insort, dictLookup_dictSet]
    by_cases hp : p = hashFn (st.heap nid).name
    · simp [hp]
    · rw [if_neg hp, ← hiff p]
      simp [hp]

lemma add_data_ring (hashFn : String → Nat) (st : RingState) (key : String) (value : Int) :
    (add_data hashFn st key value).1.ring = st.ring := by
  unfold add_data
  split
  · rfl
  · split <;> rfl

lemma add_data_sorted (hashFn : String → Nat) (st : RingState) (key : String) (value : Int) :
    (add_data hashFn st key value).1.sorted_server_keys = st.sorted_server_keys := by
  unfold add_data
  split
  · rfl
  · split <;> rfl

lemma remove_data_ring (hashFn : String → Nat) (st : RingState) (key : String) :
    (remove_data hashFn st key).1.ring = st.ring := by
  unfold remove_data
  split
  · rfl
  · split
    · rfl
    · rfl

lemma remove_data_sorted (hashFn : String → Nat) (st : RingState) (key : String) :
    (remove_data hashFn st key).1.sorted_server_keys = st.sorted_server_keys := by
  unfold remove_data
  split
  · rfl
  · split
    · rfl
    · rfl

/-- Claim C8: every ring operation preserves the invariant that
`sorted_server_keys` is exactly the key set of the ring dict — ascending,
without duplicates, containing precisely the registered positions; in
particular this holds after every completed operation. -/
theorem C8_sorted_inv_preserved :
    (∀ (hashFn : String → Nat) (st : RingState) (nid : Nat),
      SortedInv st → SortedInv (add_server hashFn st nid).1)
    ∧ (∀ (hashFn : String → Nat) (st : RingState) (nid : Nat),
      SortedInv st → SortedInv (remove_server hashFn st nid).1)
    ∧ (∀ (hashFn : String → Nat) (st : RingState) (key : String) (value : Int),
      SortedInv st → SortedInv (add_data hashFn st key value).1)
    ∧ (∀ (hashFn : String → Nat) (st : RingState) (key : String),
      SortedInv st → SortedInv (remove_data hashFn st key).1) := by
  refine ⟨?_, ?_, ?_, ?_⟩
  · intro hashFn st nid hInv
    by_cases hfresh : dictMem st.ring (hashFn (st.heap nid).name) = true
    · have heq : add_server hashFn st nid =
          (st, some (PyError.duplicatePositionError (hashFn (st.heap nid).name))) := by
        simp [add_server, hfresh]
      rw [heq]
      exact hInv
    · have hfresh2 : dictMem st.ring (hashFn (st.heap nid).name) = false := by
        revert hfresh
        cases dictMem st.ring (hashFn (st.heap nid).name) <;> simp
      have hInv1 := SortedInv_addRegister hashFn st nid hInv hfresh2
      cases hsucc : get_successor_node hashFn (addRegister hashFn st nid) nid with
      | error e =>
          have heq : add_server hashFn st nid = (addRegister hashFn st nid, some e) := by
            simp [add_server, hfresh2, hsucc]
          rw [heq]
          exact hInv1
      | ok sid =>
          rw [add_server_of_fresh hashFn st nid sid hfresh2 hsucc]
          exact SortedInv_congr _ _ (transfer_ring _ _ _ _) (transfer_sorted _ _ _ _) hInv1
  · intro hashFn st nid hInv
    cases hsucc : get_successor_node hashFn st nid with
    | error e =>
        have heq : remove_server hashFn st nid = (st, some e) := by
          simp [remove_server, hsucc]
        rw [heq]
        exact hInv
    | ok sid =>
        rcases hT : transfer_data st nid sid ((st.heap nid).data.map Prod.fst) with ⟨st1, e⟩
        have hring : st1.ring = st.ring := by
          have h := transfer_ring st nid sid ((st.heap nid).data.map Prod.fst)
          rw [hT] at h
          exact h
        have hsk : st1.sorted_server_keys = st.sorted_server_keys := by
          have h := transfer_sorted st nid sid ((st.heap nid).data.map Prod.fst)
          rw [hT] at h
          exact h
        have hInv1 : SortedInv st1 := SortedInv_congr st st1 hring hsk hInv
        cases e with
        | some err =>
            have heq : remove_server hashFn st nid = (st1, some err) := by
              simp [remove_server, hsucc, hT]
            rw [heq]
            exact hInv1
        | none =>
            obtain ⟨hs, hnd, hiff⟩ := hInv
            by_cases hmem : dictMem st1.ring (hashFn (st.heap nid).name) = true
            · have heq : remove_server hashFn st nid =
                  ({ heap := st1.heap,
                     ring := dictDel st1.ring (hashFn (st.heap nid).name),
                     sorted_server_keys :=
                       removeFirst st1.sorted_server_keys (hashFn (st.heap nid).name) },
                   none) := by
                simp [remove_server, hsucc, hT, hmem]
              rw [heq]
              have hndsorted : st.sorted_server_keys.Nodup := hs.nodup
              refine ⟨?_, ?_, ?_⟩
              · show (removeFirst st1.sorted_server_keys (hashFn (st.heap nid).name)).Sorted (· < ·)
                rw [hsk]
                exact List.Pairwise.sublist (removeFirst_sublist _ _) hs
              · show ((dictDel st1.ring (hashFn (st.heap nid).name)).map Prod.fst).Nodup
                rw [hring]
                exact List.Nodup.sublist
                  (List.Sublist.map Prod.fst (dictDel_sublist _ _)) hnd
              · intro p
                show p ∈ removeFirst st1.sorted_server_keys (hashFn (st.heap nid).name)
                  ↔ (dictLookup (dictDel st1.ring (hashFn (st.heap nid).name)) p).isSome = true
                rw [hsk, hring, mem_removeFirst _ _ _ hndsorted]
                by_cases hp : p = hashFn (st.heap nid).name
                · subst hp
                  rw [dictLookup_dictDel_self _ _ hnd]
                  simp
                · rw [dictLookup_dictDel_ne _ _ _ hp, ← hiff p]
                  simp [hp]
            · have heq : remove_server hashFn st nid =
                  (st1, some (PyError.ringKeyError (hashFn (st.heap nid).name))) := by
                simp [remove_server, hsucc, hT, hmem]
              rw [heq]
              exact hInv1
  · intro hashFn st key value hInv
    exact SortedInv_congr st _ (add_data_ring hashFn st key value)
      (add_data_sorted hashFn st key value) hInv
  · intro hashFn st key hInv
    exact SortedInv_congr st _ (remove_data_ring hashFn st key)
      (remove_data_sorted hashFn st key) hInv

/-- Witness for C8: stC5 satisfies the invariant and it is preserved by a
completed `add_data` call. -/
theorem C8_sorted_inv_witness :
    SortedInv stC5
    ∧ (add_data hashT stC5 "q" 4).2 = none
    ∧ SortedInv (add_data hashT stC5 "q" 4).1 := by
  have hInv : SortedInv stC5 := by
    refine ⟨by decide, by decide, ?_⟩
    intro p
    show p ∈ [50, 200] ↔ (dictLookup [(50, 0), (200, 1)] p).isSome = true
    by_cases h1 : p = 50
    · subst h1
      decide
    · by_cases h2 : p = 200
      · subst h2
        decide
      · have h1x : ¬ (50 = p) := fun h => h1 h.symm
        have h2x : ¬ (200 = p) := fun h => h2 h.symm
        simp [dictLookup, h1, h2, h1x, h2x]
  exact ⟨hInv, by decide, C8_sorted_inv_preserved.2.2.1 hashT stC5 "q" 4 hInv⟩

end ConsistentHashing
